import Mathlib

/-!
Verification of the incomplete-emphasis resolver
(src/incomplete-emphases.ts): Scanner (flanking classification of
delimiter runs), Matcher (collectSegments) and Builder (buildTree).
The TypeScript code is embedded shallowly: positions are natural
numbers, the mutable parts array is a list of optional delimiters,
and the two unbounded loops (the closer loop, which can re-examine
the same index after a partial match, and the recursive tree builder)
take an explicit fuel argument; sufficiency of the fuel used by the
wrappers is proved below.
-/

/-- Delimiter kind: the two delimiter types of the source
(EmphasisUnderscore / EmphasisAsterisk); runs of different kinds are
never matched with each other. -/
inductive DelimType where
  | EmphasisUnderscore
  | EmphasisAsterisk
deriving DecidableEq, Repr

/-- Node / segment type vocabulary emitted by the module. -/
inductive NodeType where
  | Emphasis
  | StrongEmphasis
  | EmphasisMark
deriving DecidableEq, Repr

/-- Mark.Open flag of the source. -/
def Mark.Open : Nat := 1

/-- Mark.Close flag of the source. -/
def Mark.Close : Nat := 2

/-- InlineDelimiter of the source: type, span and side bitmask. -/
structure InlineDelimiter where
  type : DelimType
  from_ : Nat
  to_ : Nat
  side : Nat
deriving DecidableEq, Repr

/-- Segment of the source: an emphasis candidate before tree building. -/
structure Segment where
  type : NodeType
  from_ : Nat
  to_ : Nat
  markSizeOpen : Nat
  markSizeClose : Nat
deriving DecidableEq, Repr

/-- Element of the output tree (cx.elt of the source): node type, span
and ordered children. -/
inductive Element where
  | elt (type : NodeType) (from_ : Nat) (to_ : Nat) (children : List Element)
deriving Repr

def Element.type : Element → NodeType
  | .elt t _ _ _ => t

def Element.from_ : Element → Nat
  | .elt _ f _ _ => f

def Element.to_ : Element → Nat
  | .elt _ _ u _ => u

def Element.children : Element → List Element
  | .elt _ _ _ cs => cs

/-- Punctuation test of the source: the ASCII fallback regex class,
that is codes 33-47, 58-64, 91-96, 123-126, 0xA1 and 0x2010-0x2027.
The claims only involve ASCII text, for which the Unicode class and
the fallback agree on the characters used here. -/
def isPunctChar (c : Char) : Bool :=
  let n := c.toNat
  decide ((33 ≤ n ∧ n ≤ 47) ∨ (58 ≤ n ∧ n ≤ 64) ∨ (91 ≤ n ∧ n ≤ 96) ∨
    (123 ≤ n ∧ n ≤ 126) ∨ n = 0xA1 ∨ (0x2010 ≤ n ∧ n ≤ 0x2027))

/-- Whitespace test (the JavaScript regex class \s). -/
def isSpaceChar (c : Char) : Bool :=
  let n := c.toNat
  decide (n = 32 ∨ n = 9 ∨ n = 10 ∨ n = 11 ∨ n = 12 ∨ n = 13 ∨ n = 0xA0 ∨
    n = 0x1680 ∨ (0x2000 ≤ n ∧ n ≤ 0x200A) ∨ n = 0x2028 ∨ n = 0x2029 ∨
    n = 0x202F ∨ n = 0x205F ∨ n = 0x3000 ∨ n = 0xFEFF)

/-- Punctuation.test on a 1-character slice; an out-of-range slice is
the empty string, which the punctuation regex does not match. -/
def testP : Option Char → Bool
  | none => false
  | some c => isPunctChar c

/-- Test of the regex \s|^$ on a 1-character slice; it matches the
empty string produced by an out-of-range slice. -/
def testS : Option Char → Bool
  | none => true
  | some c => isSpaceChar c

/-- Flanking classification of one delimiter run [start, pos), exactly
as in the parse function of the source (steps 2-3). -/
def mkDelim (orig : List Char) (c : Char) (start pos : Nat) : InlineDelimiter :=
  let before := if start = 0 then none else orig.get? (start - 1)
  let after := orig.get? pos
  let pBefore := testP before
  let pAfter := testP after
  let sBefore := testS before
  let sAfter := testS after
  let leftFlanking := !sAfter && (!pAfter || sBefore || pBefore)
  let rightFlanking := !sBefore && (!pBefore || sAfter || pAfter)
  let canOpen := leftFlanking && (c == '*' || !rightFlanking || pBefore)
  let canClose := rightFlanking && (c == '*' || !leftFlanking || pAfter)
  { type := if c == '_' then DelimType.EmphasisUnderscore else DelimType.EmphasisAsterisk
    from_ := start
    to_ := pos
    side := Nat.lor (if canOpen then Mark.Open else 0) (if canClose then Mark.Close else 0) }

/-- Length of the maximal run of character c at the head of the list. -/
def runLen (c : Char) : List Char → Nat
  | [] => 0
  | x :: xs => if x == c then runLen c xs + 1 else 0

/-- Scan the whole text for delimiter runs of asterisks or underscores
(the per-position parse of the source, iterated over the text; each
maximal run becomes one InlineDelimiter).  The fuel argument only
serves structural recursion: every step shortens the character list,
so the fuel text.length + 1 supplied by scanDelims never runs out. -/
def scanAux (orig : List Char) : Nat → List Char → Nat → List InlineDelimiter
  | 0, _, _ => []
  | _ + 1, [], _ => []
  | fuel + 1, c :: rest, i =>
    if c == '*' || c == '_' then
      let n := runLen c rest + 1
      mkDelim orig c i (i + n) :: scanAux orig fuel (rest.drop (n - 1)) (i + n)
    else
      scanAux orig fuel rest (i + 1)

/-- Scanner: the delimiter-run list of a text span [0, text.length). -/
def scanDelims (text : List Char) : List InlineDelimiter :=
  scanAux text (text.length + 1) text 0

/-- Remaining length of a parts slot (null slots count 0). -/
def optLen : Option InlineDelimiter → Nat
  | none => 0
  | some d => d.to_ - d.from_

/-- Total remaining delimiter length of the parts list; the measure
that strictly decreases on every matched pair. -/
def totalLen (parts : List (Option InlineDelimiter)) : Nat :=
  (parts.map optLen).sum

/-- Backward scan for the nearest admissible opener (collectSegments,
lines 221-235 of the source): called with the current closer index i,
it inspects indices i-1, i-2, ..., 0, skipping null slots, runs that
cannot open, runs of the wrong kind and exhausted runs, and rejecting
candidates by the atomic-unit rule and the mod-3 ambiguity rule.  It
returns the index together with the delimiter found there. -/
def findOpen (parts : List (Option InlineDelimiter)) (close : InlineDelimiter)
    (closeSize : Nat) : Nat → Option (Nat × InlineDelimiter)
  | 0 => none
  | j + 1 =>
    match parts.get? j with
    | some (some op) =>
      if Nat.land op.side Mark.Open = 0 ∨ op.type ≠ close.type then
        findOpen parts close closeSize j
      else
        let openSize := op.to_ - op.from_
        if openSize = 0 then findOpen parts close closeSize j
        else
          let size := min 2 (min openSize closeSize)
          if size = 1 ∧ (openSize = 2 ∨ closeSize = 2) then
            findOpen parts close closeSize j
          else if (Nat.land op.side Mark.Close ≠ 0 ∨ Nat.land close.side Mark.Open ≠ 0) ∧
              (openSize + closeSize) % 3 = 0 ∧ (openSize % 3 ≠ 0 ∨ closeSize % 3 ≠ 0) then
            findOpen parts close closeSize j
          else
            some (j, op)
    | _ => findOpen parts close closeSize j

/-- Matching pass of collectSegments (lines 215-270): a single
left-to-right sweep over potential closers with backward opener
search, shrinking matched runs and re-examining a closer that still
has remaining length.  The source loop terminates because the total
remaining length shrinks on every match; here the recursion carries
fuel and returns none when the fuel is exhausted (proved unreachable
for the fuel supplied by collectSegments). -/
def matchLoop : Nat → List (Option InlineDelimiter) → Nat → List Segment →
    Option (List (Option InlineDelimiter) × List Segment)
  | 0, _, _, _ => none
  | fuel + 1, parts, i, segments =>
    if i < parts.length then
      match parts.get? i with
      | some (some close) =>
        if Nat.land close.side Mark.Close = 0 then matchLoop fuel parts (i + 1) segments
        else
          let closeSize := close.to_ - close.from_
          if closeSize = 0 then matchLoop fuel parts (i + 1) segments
          else
            match findOpen parts close closeSize i with
            | none => matchLoop fuel parts (i + 1) segments
            | some (openIdx, op) =>
              let openSize := op.to_ - op.from_
              let size := min 2 (min openSize closeSize)
              let type := if size = 1 then NodeType.Emphasis else NodeType.StrongEmphasis
              let start := op.to_ - size
              let end_ := close.from_ + size
              let segments' := segments ++
                [{ type := type
                   from_ := start
                   to_ := end_
                   markSizeOpen := size
                   markSizeClose := size }]
              let parts' :=
                if 0 < openSize - size then
                  if op.to_ - size ≤ op.from_ then parts.set openIdx none
                  else parts.set openIdx (some { op with to_ := start })
                else parts.set openIdx none
              if 0 < closeSize - size then
                if close.to_ ≤ end_ then matchLoop fuel (parts'.set i none) (i + 1) segments'
                else matchLoop fuel (parts'.set i (some { close with from_ := end_ })) i segments'
              else matchLoop fuel (parts'.set i none) (i + 1) segments'
      | _ => matchLoop fuel parts (i + 1) segments
    else
      some (parts, segments)

/-- Incomplete peeling of one leftover opener run (collectSegments,
lines 274-284): repeatedly peel min(2, remaining) characters, each
chunk becoming a Segment reaching blockEnd with closeMark 0;
remaining is the current remaining length, the run keeping its right
edge dto. -/
def peelRun (dto blockEnd : Nat) : Nat → List Segment
  | 0 => []
  | 1 => [{ type := NodeType.Emphasis
            from_ := dto - 1
            to_ := blockEnd
            markSizeOpen := 1
            markSizeClose := 0 }]
  | remaining + 2 =>
    { type := NodeType.StrongEmphasis
      from_ := dto - (remaining + 2)
      to_ := blockEnd
      markSizeOpen := 2
      markSizeClose := 0 } :: peelRun dto blockEnd remaining

/-- Peel every surviving opener-capable run (collectSegments,
lines 272-285). -/
def peelAll (parts : List (Option InlineDelimiter)) (blockEnd : Nat) : List Segment :=
  parts.flatMap fun d =>
    match d with
    | none => []
    | some d =>
      if Nat.land d.side Mark.Open = 0 then []
      else peelRun d.to_ blockEnd (d.to_ - d.from_)

/-- Fuel that suffices for the matching pass (proved below): the total
remaining length plus the number of slots still to visit, plus one. -/
def fuelFor (parts : List (Option InlineDelimiter)) (i : Nat) : Nat :=
  totalLen parts + (parts.length - i) + 1

/-- collectSegments of the source: the matching pass on fresh copies
of the delimiters, followed by incomplete peeling of leftover
openers. -/
def collectSegments (delims : List InlineDelimiter) (blockEnd : Nat) : List Segment :=
  let parts := delims.map some
  match matchLoop (fuelFor parts 0) parts 0 [] with
  | some (parts', segments) => segments ++ peelAll parts' blockEnd
  | none => []

/-- Comparator of the builder sort (a.from - b.from || b.to - a.to) as
a total preorder: a precedes b. -/
def segLe (a b : Segment) : Bool :=
  decide (a.from_ < b.from_) || (decide (a.from_ = b.from_) && decide (b.to_ ≤ a.to_))

/-- Stable insertion of a behind every already-placed element that
precedes or ties it. -/
def insertSeg (a : Segment) : List Segment → List Segment
  | [] => [a]
  | b :: bs => if segLe b a then b :: insertSeg a bs else a :: b :: bs

/-- Stable sort by start ascending, end descending (segments.sort of
the source; JavaScript Array.sort is stable, and a stable sort for a
total preorder is unique, realised here by insertion). -/
def sortSegs (l : List Segment) : List Segment :=
  l.foldl (fun acc a => insertSeg a acc) []

/-- Inner sweep of buildTree (lines 302-330): for the current segment
s, walk the remaining working list until a null slot or a segment
starting at or after s.to_ is reached; each visited segment
contributes its intersection with the content region of s (marks
zeroed on moved edges) to the inner list, and its slot is replaced by
the outer remainder when it extends past s.to_, by null otherwise.
Returns (inner, updated remainder of the working list). -/
def scanInner (s : Segment) : List (Option Segment) → List Segment × List (Option Segment)
  | [] => ([], [])
  | none :: rest => ([], none :: rest)
  | some other :: rest =>
    if s.to_ ≤ other.from_ then ([], some other :: rest)
    else
      let contentStart := s.from_ + s.markSizeOpen
      let contentEnd := s.to_ - s.markSizeClose
      let pushed : List Segment :=
        if other.from_ < contentEnd ∧ contentStart < other.to_ then
          let start := max other.from_ contentStart
          let end_ := min other.to_ contentEnd
          if start < end_ then
            [{ other with
               from_ := start
               to_ := end_
               markSizeClose := (if end_ = other.to_ then other.markSizeClose else 0)
               markSizeOpen := (if start = other.from_ then other.markSizeOpen else 0) }]
          else []
        else []
      let slot : Option Segment :=
        if s.to_ < other.to_ then some { other with from_ := s.to_, markSizeOpen := 0 }
        else none
      let next := scanInner s rest
      (pushed ++ next.1, slot :: next.2)

/-- Main loop of buildTree (lines 296-343) with explicit fuel: skip
null or already-subsumed slots, otherwise clip the following
overlapping segments, recursively build the inner tree (the source
recursion re-sorts and restarts at position 0), wrap with
EmphasisMark leaves, and continue past the emitted segment. -/
def buildTreeGo : Nat → List (Option Segment) → Nat → List Element
  | 0, _, _ => []
  | _ + 1, [], _ => []
  | fuel + 1, none :: rest, pos => buildTreeGo fuel rest pos
  | fuel + 1, some s :: rest, pos =>
    if s.from_ < pos then buildTreeGo fuel rest pos
    else
      let next := scanInner s rest
      let innerElts := buildTreeGo fuel ((sortSegs next.1).map some) 0
      let children :=
        (if s.type ≠ NodeType.EmphasisMark ∧ 0 < s.markSizeOpen then
          [Element.elt NodeType.EmphasisMark s.from_ (s.from_ + s.markSizeOpen) []] else [])
        ++ innerElts
        ++ (if s.type ≠ NodeType.EmphasisMark ∧ 0 < s.markSizeClose then
          [Element.elt NodeType.EmphasisMark (s.to_ - s.markSizeClose) s.to_ []] else [])
      Element.elt s.type s.from_ s.to_ children :: buildTreeGo fuel next.2 s.to_

/-- buildTree of the source: sort, then run the sweep from position 0.
The fuel segments.length + 1 suffices because every recursive call
operates on a strictly shorter working list (proved below). -/
def buildTree (segments : List Segment) : List Element :=
  buildTreeGo (segments.length + 1) ((sortSegs segments).map some) 0

/-- Whole pipeline on one inline text span: Scanner, Matcher, Builder
(resolveIncompleteEmphasis steps 3-4 with effectiveEnd equal to the
span length). -/
def emphasisTree (text : List Char) : List Element :=
  buildTree (collectSegments (scanDelims text) text.length)

/-- Content-region start of a segment. -/
def contentStartOf (s : Segment) : Nat := s.from_ + s.markSizeOpen

/-- Content-region end of a segment. -/
def contentEndOf (s : Segment) : Nat := s.to_ - s.markSizeClose

/-- Clip of a following segment to the content region of s, marks
zeroed on edges that moved (the object pushed by the inner sweep). -/
def clipSeg (s other : Segment) : Segment :=
  { other with
    from_ := max other.from_ (contentStartOf s)
    to_ := min other.to_ (contentEndOf s)
    markSizeOpen := (if max other.from_ (contentStartOf s) = other.from_ then other.markSizeOpen else 0)
    markSizeClose := (if min other.to_ (contentEndOf s) = other.to_ then other.markSizeClose else 0) }

/-- Outer remainder of a segment that extends past s.to_ : spans from
s.to_ to its original end with the opening mark forced to 0. -/
def remSeg (s other : Segment) : Segment :=
  { other with from_ := s.to_, markSizeOpen := 0 }

/-- Running lower bound after a child list: the end of its last
element (or the given bound when empty). -/
def chainEnd : Nat → List Element → Nat
  | lo, [] => lo
  | _, c :: cs => chainEnd c.to_ cs

/-- Checks that a child list is sorted left to right without overlap:
each child starts at or after the running bound, which then advances
to its end. -/
def nodesChain : Nat → List Element → Bool
  | _, [] => true
  | lo, c :: cs => decide (lo ≤ c.from_) && nodesChain c.to_ cs

/-- Containment and non-degeneracy of each child span in the parent
span ending at u. -/
def childrenFit (u : Nat) (cs : List Element) : Bool :=
  cs.all fun c => decide (c.to_ ≤ u) && decide (c.from_ < c.to_)

/-- Structural invariant of a forest: for every node, its children are
chained (sorted ascending, mutually non-overlapping) starting at the
parent start, each child is a non-empty span contained in the parent
span, EmphasisMark nodes are leaves, and the same holds recursively
for the children. -/
def forestOk : List Element → Bool
  | [] => true
  | .elt t f u cs :: rest =>
    nodesChain f cs && childrenFit u cs &&
    (!decide (t = NodeType.EmphasisMark) || cs.isEmpty) &&
    forestOk cs && forestOk rest

/-- Structural node invariant (the forest invariant of the singleton). -/
def nodeOk (e : Element) : Bool :=
  forestOk [e]

/-- Basic per-segment invariant of the Segment data model: a non-empty
span, marks that fit inside it (non-negative content region), and a
container type. -/
def segBasic (s : Segment) : Prop :=
  s.from_ < s.to_ ∧ s.from_ + s.markSizeOpen + s.markSizeClose ≤ s.to_ ∧
  s.type ≠ NodeType.EmphasisMark

/-- Disjointness of two half-open intervals (an empty interval is
disjoint from everything). -/
def ivDisj (a b c d : Nat) : Prop := b ≤ c ∨ d ≤ a ∨ b ≤ a ∨ d ≤ c

/-- The marks of x do not strictly contain position p. -/
def noStraddlePt (x : Segment) (p : Nat) : Prop :=
  ¬(x.from_ < p ∧ p < x.from_ + x.markSizeOpen) ∧
  ¬(x.to_ - x.markSizeClose < p ∧ p < x.to_)

/-- Mark separation of two segments, as produced by the Matcher: their
four mark intervals are pairwise disjoint and neither segment's marks
straddle the other's content-region boundaries. -/
def sepRel (x y : Segment) : Prop :=
  (ivDisj x.from_ (x.from_ + x.markSizeOpen) y.from_ (y.from_ + y.markSizeOpen) ∧
   ivDisj x.from_ (x.from_ + x.markSizeOpen) (y.to_ - y.markSizeClose) y.to_ ∧
   ivDisj (x.to_ - x.markSizeClose) x.to_ y.from_ (y.from_ + y.markSizeOpen) ∧
   ivDisj (x.to_ - x.markSizeClose) x.to_ (y.to_ - y.markSizeClose) y.to_) ∧
  noStraddlePt x (contentStartOf y) ∧ noStraddlePt x (contentEndOf y) ∧
  noStraddlePt y (contentStartOf x) ∧ noStraddlePt y (contentEndOf x)

/-- Lift of a segment relation to working-list slots. -/
def optSep : Option Segment → Option Segment → Prop
  | some a, some b => sepRel a b
  | _, _ => True

/-- Invariant of a plain segment list entering the builder. -/
def goodSegs (lo hi : Nat) (l : List Segment) : Prop :=
  (∀ a ∈ l, segBasic a ∧ lo ≤ a.from_ ∧ a.to_ ≤ hi) ∧ List.Pairwise sepRel l

/-- Invariant of a working list of slots. -/
def goodList (lo hi : Nat) (l : List (Option Segment)) : Prop :=
  (∀ a : Segment, some a ∈ l → segBasic a ∧ lo ≤ a.from_ ∧ a.to_ ≤ hi) ∧
  List.Pairwise optSep l

/-- Upper bound on segment ends of a list. -/
def maxTo : List Segment → Nat
  | [] => 0
  | s :: rest => max s.to_ (maxTo rest)

/-- Concrete delimiter: a 2-asterisk opener-only run at 0-2. -/
def exOpen2 : InlineDelimiter :=
  { type := DelimType.EmphasisAsterisk
    from_ := 0
    to_ := 2
    side := 1 }

/-- Concrete delimiter: a 1-asterisk closer-only run at 10-11. -/
def exClose1 : InlineDelimiter :=
  { type := DelimType.EmphasisAsterisk
    from_ := 10
    to_ := 11
    side := 2 }

/-- Concrete delimiter: a 4-asterisk dual-capable run at 0-4. -/
def exDual4 : InlineDelimiter :=
  { type := DelimType.EmphasisAsterisk
    from_ := 0
    to_ := 4
    side := 3 }

/-- Concrete delimiter: a 2-asterisk dual-capable run at 10-12. -/
def exDual2 : InlineDelimiter :=
  { type := DelimType.EmphasisAsterisk
    from_ := 10
    to_ := 12
    side := 3 }

/-- Concrete delimiter: the first asterisk run of the text a*b*c,
dual-capable at 1-2. -/
def exAst1 : InlineDelimiter :=
  { type := DelimType.EmphasisAsterisk
    from_ := 1
    to_ := 2
    side := 3 }

/-- Concrete delimiter: the second asterisk run of the text a*b*c,
dual-capable at 3-4. -/
def exAst2 : InlineDelimiter :=
  { type := DelimType.EmphasisAsterisk
    from_ := 3
    to_ := 4
    side := 3 }

/-- Concrete segment: the matched Emphasis 0-20 of the overlap
example (marks of length 1 on both sides). -/
def exSegA : Segment :=
  { type := NodeType.Emphasis
    from_ := 0
    to_ := 20
    markSizeOpen := 1
    markSizeClose := 1 }

/-- Concrete segment: the matched StrongEmphasis 13-26 of the overlap
example (marks of length 2 on both sides). -/
def exSegB : Segment :=
  { type := NodeType.StrongEmphasis
    from_ := 13
    to_ := 26
    markSizeOpen := 2
    markSizeClose := 2 }

instance (s : Segment) : Decidable (segBasic s) := by
  unfold segBasic
  infer_instance

instance (a b c d : Nat) : Decidable (ivDisj a b c d) := by
  unfold ivDisj
  infer_instance

instance (x : Segment) (p : Nat) : Decidable (noStraddlePt x p) := by
  unfold noStraddlePt
  infer_instance

instance (x y : Segment) : Decidable (sepRel x y) := by
  unfold sepRel
  infer_instance

/-- Containment of the half-open interval [c, d) in [a, b), allowing
an empty [c, d). -/
def subIv (a b c d : Nat) : Prop := (a ≤ c ∧ d ≤ b) ∨ d ≤ c

/-! Lemmas about the Matcher loop measure. -/

theorem totalLen_cons (a : Option InlineDelimiter) (l : List (Option InlineDelimiter)) :
    totalLen (a :: l) = optLen a + totalLen l := by
  simp [totalLen]

theorem totalLen_set (l : List (Option InlineDelimiter)) (j : Nat)
    (v x : Option InlineDelimiter) (h : l.get? j = some x) :
    totalLen (l.set j v) + optLen x = totalLen l + optLen v := by
  induction l generalizing j with
  | nil => simp at h
  | cons a l ih =>
    cases j with
    | zero =>
      simp only [List.get?] at h
      cases h
      simp [List.set, totalLen_cons]
      omega
    | succ j =>
      simp only [List.get?] at h
      have := ih j h
      simp [List.set, totalLen_cons]
      omega

theorem findOpen_spec (parts : List (Option InlineDelimiter)) (close : InlineDelimiter)
    (closeSize : Nat) :
    ∀ k j op, findOpen parts close closeSize k = some (j, op) →
      j < k ∧ parts.get? j = some (some op) ∧
      Nat.land op.side Mark.Open ≠ 0 ∧ op.type = close.type ∧ 0 < op.to_ - op.from_ ∧
      ¬(min 2 (min (op.to_ - op.from_) closeSize) = 1 ∧ (op.to_ - op.from_ = 2 ∨ closeSize = 2)) ∧
      ¬((Nat.land op.side Mark.Close ≠ 0 ∨ Nat.land close.side Mark.Open ≠ 0) ∧
        (op.to_ - op.from_ + closeSize) % 3 = 0 ∧
        ((op.to_ - op.from_) % 3 ≠ 0 ∨ closeSize % 3 ≠ 0)) := by
  intro k
  induction k with
  | zero => intro j op h; simp [findOpen] at h
  | succ k ih =>
    intro j op h
    rw [findOpen] at h
    split at h
    case _ op' hg =>
      dsimp only at h
      split_ifs at h with h1 h2 h3 h4
      · have := ih j op h
        exact ⟨Nat.lt_succ_of_lt this.1, this.2⟩
      · have := ih j op h
        exact ⟨Nat.lt_succ_of_lt this.1, this.2⟩
      · have := ih j op h
        exact ⟨Nat.lt_succ_of_lt this.1, this.2⟩
      · have := ih j op h
        exact ⟨Nat.lt_succ_of_lt this.1, this.2⟩
      · cases h
        push_neg at h1
        exact ⟨Nat.lt_succ_self k, hg, h1.1, h1.2, Nat.pos_of_ne_zero h2, h3, h4⟩
    case _ =>
      have := ih j op h
      exact ⟨Nat.lt_succ_of_lt this.1, this.2⟩

set_option maxHeartbeats 2000000 in
theorem matchLoop_isSome :
    ∀ fuel parts i segments, totalLen parts + (parts.length - i) < fuel →
      (matchLoop fuel parts i segments).isSome = true := by
  intro fuel
  induction fuel with
  | zero => intro parts i segments h; omega
  | succ fuel ih =>
    intro parts i segments h
    rw [matchLoop]
    split
    case isFalse => simp
    case isTrue hi =>
      split
      case _ close hg =>
        split_ifs with hside
        · exact ih parts (i + 1) segments (by omega)
        dsimp only
        split_ifs with hcs
        · exact ih parts (i + 1) segments (by omega)
        rcases hfo : findOpen parts close (close.to_ - close.from_) i with _ | ⟨openIdx, op⟩
        · simp only [hfo]
          exact ih parts (i + 1) segments (by omega)
        · simp only [hfo]
          obtain ⟨hji, hgetj, -, -, hopsz, -, -⟩ :=
            findOpen_spec parts close (close.to_ - close.from_) i openIdx op hfo
          split_ifs with hrc hcdead hro hnull hro2 hnull2
          all_goals refine ih _ _ _ ?_
          all_goals
            have h1a := totalLen_set parts openIdx none (some op) hgetj
          all_goals
            have h1b := totalLen_set parts openIdx
              (some { op with
                to_ := op.to_ - min 2 (min (op.to_ - op.from_) (close.to_ - close.from_)) })
              (some op) hgetj
          all_goals
            have hgia : (parts.set openIdx none).get? i = some (some close) := by
              rw [List.get?_set_ne _ _ (by omega)]
              exact hg
          all_goals
            have hgib : (parts.set openIdx
                (some { op with
                  to_ := op.to_ -
                    min 2 (min (op.to_ - op.from_) (close.to_ - close.from_)) })).get? i =
                some (some close) := by
              rw [List.get?_set_ne _ _ (by omega)]
              exact hg
          all_goals
            have h2aa := totalLen_set (parts.set openIdx none) i none (some close) hgia
          all_goals
            have h2ab := totalLen_set (parts.set openIdx none) i
              (some { close with
                from_ := close.from_ +
                  min 2 (min (op.to_ - op.from_) (close.to_ - close.from_)) })
              (some close) hgia
          all_goals
            have h2ba := totalLen_set (parts.set openIdx
                (some { op with
                  to_ := op.to_ -
                    min 2 (min (op.to_ - op.from_) (close.to_ - close.from_)) })) i
              none (some close) hgib
          all_goals
            have h2bb := totalLen_set (parts.set openIdx
                (some { op with
                  to_ := op.to_ -
                    min 2 (min (op.to_ - op.from_) (close.to_ - close.from_)) })) i
              (some { close with
                from_ := close.from_ +
                  min 2 (min (op.to_ - op.from_) (close.to_ - close.from_)) })
              (some close) hgib
          all_goals
            simp only [optLen, List.length_set] at h1a h1b h2aa h2ab h2ba h2bb ⊢
          all_goals omega
      case _ hg =>
        exact ih parts (i + 1) segments (by omega)

theorem peelRun_length (dto blockEnd : Nat) : ∀ r, (peelRun dto blockEnd r).length ≤ r := by
  intro r
  induction r using Nat.strong_induction_on with
  | _ r ih =>
    match r with
    | 0 => simp [peelRun]
    | 1 => simp [peelRun]
    | n + 2 =>
      have := ih n (by omega)
      simp only [peelRun, List.length_cons]
      omega

theorem peelRun_mem (dto blockEnd : Nat) :
    ∀ r s, s ∈ peelRun dto blockEnd r → s.to_ = blockEnd ∧ s.markSizeClose = 0 ∧
      ((s.markSizeOpen = 2 ∧ s.type = NodeType.StrongEmphasis) ∨
       (s.markSizeOpen = 1 ∧ s.type = NodeType.Emphasis)) := by
  intro r
  induction r using Nat.strong_induction_on with
  | _ r ih =>
    match r with
    | 0 => intro s hs; simp [peelRun] at hs
    | 1 =>
      intro s hs
      simp only [peelRun, List.mem_singleton] at hs
      subst hs
      exact ⟨rfl, rfl, Or.inr ⟨rfl, rfl⟩⟩
    | n + 2 =>
      intro s hs
      simp only [peelRun, List.mem_cons] at hs
      rcases hs with hs | hs
      · subst hs
        exact ⟨rfl, rfl, Or.inl ⟨rfl, rfl⟩⟩
      · exact ih n (by omega) s hs

theorem peelRun_sum (dto blockEnd : Nat) :
    ∀ r, ((peelRun dto blockEnd r).map Segment.markSizeOpen).sum = r := by
  intro r
  induction r using Nat.strong_induction_on with
  | _ r ih =>
    match r with
    | 0 => simp [peelRun]
    | 1 => simp [peelRun]
    | n + 2 =>
      have := ih n (by omega)
      simp only [peelRun, List.map_cons, List.sum_cons]
      omega

/-- C9: the Matcher terminates: the fuel totalLen parts plus the number
of slots left plus one (the exact measure that strictly shrinks, since
every matched pair consumes at least one character from both the
opener and the re-examined closer, and every other step advances the
closer index) always completes the matching pass, and the incomplete
peeling of a run of remaining length r emits at most r chunks, each
chunk consuming at least one character. -/
theorem c9_matcher_termination :
    (∀ parts i segments, (matchLoop (fuelFor parts i) parts i segments).isSome = true) ∧
    (∀ dto blockEnd r, (peelRun dto blockEnd r).length ≤ r) := by
  constructor
  · intro parts i segments
    exact matchLoop_isSome (fuelFor parts i) parts i segments (Nat.lt_succ_self _)
  · intro dto blockEnd r
    exact peelRun_length dto blockEnd r

/-- C1: every segment peeled from a leftover opener run is incomplete:
it ends at blockEnd with closeMarkLength 0, is StrongEmphasis with
openMarkLength 2 for a 2-character chunk and Emphasis with
openMarkLength 1 for a 1-character chunk; the chunk sizes sum to the
whole remaining length (the run is exhausted, one Segment per chunk of
min(2, remaining)); and on the input STAR never closes the pipeline
produces exactly one Emphasis node whose end equals blockEnd = 13,
with a single opening EmphasisMark of length 1 and no closing mark. -/
theorem c1_incomplete_peeling :
    (∀ dto blockEnd r s, s ∈ peelRun dto blockEnd r →
      s.to_ = blockEnd ∧ s.markSizeClose = 0 ∧
      ((s.markSizeOpen = 2 ∧ s.type = NodeType.StrongEmphasis) ∨
       (s.markSizeOpen = 1 ∧ s.type = NodeType.Emphasis))) ∧
    (∀ dto blockEnd r, ((peelRun dto blockEnd r).map Segment.markSizeOpen).sum = r) ∧
    collectSegments (scanDelims "*never closes".toList) 13 =
      [{ type := NodeType.Emphasis
         from_ := 0
         to_ := 13
         markSizeOpen := 1
         markSizeClose := 0 }] ∧
    emphasisTree "*never closes".toList =
      [Element.elt NodeType.Emphasis 0 13 [Element.elt NodeType.EmphasisMark 0 1 []]] := by
  refine ⟨fun dto blockEnd r s hs => peelRun_mem dto blockEnd r s hs,
    fun dto blockEnd r => peelRun_sum dto blockEnd r, ?_, ?_⟩
  · rfl
  · rfl

/-- Witness for C1: the membership hypothesis discharged on the
concrete peel of a 1-character run. -/
theorem c1_incomplete_peeling_witness :
    ({ type := NodeType.Emphasis
       from_ := 0
       to_ := 13
       markSizeOpen := 1
       markSizeClose := 0 } : Segment) ∈ peelRun 1 13 1 ∧
    (({ type := NodeType.Emphasis
        from_ := 0
        to_ := 13
        markSizeOpen := 1
        markSizeClose := 0 } : Segment).to_ = 13) :=
  ⟨by decide, (c1_incomplete_peeling.1 1 13 1 _ (by decide)).1⟩

/-- C2: on the input STAR italics and STARSTAR bold STAR end STARSTAR
the pipeline returns a top-level Emphasis node spanning from the first
asterisk (0) through the lone asterisk (end 20), containing the
truncated StrongEmphasis fragment 13-19 whose closing mark is absent
(closeMarkLength 0), followed by a top-level sibling StrongEmphasis
fragment 20-26 with no opening mark (openMarkLength 0) extending to
the final double asterisk. -/
theorem c2_overlap_split :
    emphasisTree "*italics and **bold* end**".toList =
      [Element.elt NodeType.Emphasis 0 20
        [Element.elt NodeType.EmphasisMark 0 1 [],
         Element.elt NodeType.StrongEmphasis 13 19
           [Element.elt NodeType.EmphasisMark 13 15 []],
         Element.elt NodeType.EmphasisMark 19 20 []],
       Element.elt NodeType.StrongEmphasis 20 26
         [Element.elt NodeType.EmphasisMark 24 26 []]] := by
  rfl

/-- C3: the atomic-unit rule: every opener accepted by the backward
scan satisfies the negation of (size = 1 while a 2-character run is
involved), and for a candidate that violates it the scan continues
past it unconditionally; consequently the input STARSTAR bold
STARSTAR yields exactly one StrongEmphasis node with an EmphasisMark
of length 2 on each side and no nested length-1 Emphasis. -/
theorem c3_atomic_rule :
    (∀ parts close closeSize k j op,
      findOpen parts close closeSize k = some (j, op) →
      ¬(min 2 (min (op.to_ - op.from_) closeSize) = 1 ∧
        (op.to_ - op.from_ = 2 ∨ closeSize = 2))) ∧
    (∀ parts close closeSize j op,
      parts.get? j = some (some op) →
      min 2 (min (op.to_ - op.from_) closeSize) = 1 →
      (op.to_ - op.from_ = 2 ∨ closeSize = 2) →
      findOpen parts close closeSize (j + 1) = findOpen parts close closeSize j) ∧
    emphasisTree "**bold**".toList =
      [Element.elt NodeType.StrongEmphasis 0 8
        [Element.elt NodeType.EmphasisMark 0 2 [],
         Element.elt NodeType.EmphasisMark 6 8 []]] := by
  refine ⟨?_, ?_, rfl⟩
  · intro parts close closeSize k j op h
    exact (findOpen_spec parts close closeSize k j op h).2.2.2.2.2.1
  · intro parts close closeSize j op hg hsz hlen
    rw [findOpen, hg]
    dsimp only
    split_ifs with h1 h2 h3 h4
    · rfl
    · rfl
    · rfl
    · rfl
    · exact absurd ⟨hsz, hlen⟩ h3

/-- Witness for C3: the hypotheses discharged on a concrete rejected
candidate (a 2-character opener scanned for a 1-character closer). -/
theorem c3_atomic_rule_witness :
    ([some exOpen2].get? 0 = some (some exOpen2)) ∧
    min 2 (min (exOpen2.to_ - exOpen2.from_) 1) = 1 ∧
    (exOpen2.to_ - exOpen2.from_ = 2 ∨ (1 : Nat) = 2) ∧
    findOpen [some exOpen2] exClose1 1 1 = findOpen [some exOpen2] exClose1 1 0 :=
  ⟨by decide, by decide, by decide,
    c3_atomic_rule.2.1 [some exOpen2] exClose1 1 0 exOpen2 (by decide) (by decide) (by decide)⟩

/-- C4: the mod-3 ambiguity rule: whenever either run of an accepted
pair is simultaneously opener- and closer-capable, the pair does not
have (openLen + closeLen) divisible by 3 with not both lengths
divisible by 3; and for a candidate passing all earlier checks with a
dual-capable run, the scan skips it exactly when that condition
holds.  The input a***b***c (3-character dual-capable runs on both
sides, sum and both lengths divisible by 3) is therefore matched,
producing StrongEmphasis 2-7 around b nested directly inside a
1-character Emphasis 1-8: exactly this nesting. -/
theorem c4_ambiguity_rule :
    (∀ parts close closeSize k j op,
      findOpen parts close closeSize k = some (j, op) →
      (Nat.land op.side Mark.Close ≠ 0 ∨ Nat.land close.side Mark.Open ≠ 0) →
      ¬((op.to_ - op.from_ + closeSize) % 3 = 0 ∧
        ¬((op.to_ - op.from_) % 3 = 0 ∧ closeSize % 3 = 0))) ∧
    (∀ parts close closeSize j op,
      parts.get? j = some (some op) →
      Nat.land op.side Mark.Open ≠ 0 → op.type = close.type → op.to_ - op.from_ ≠ 0 →
      ¬(min 2 (min (op.to_ - op.from_) closeSize) = 1 ∧
        (op.to_ - op.from_ = 2 ∨ closeSize = 2)) →
      (Nat.land op.side Mark.Close ≠ 0 ∨ Nat.land close.side Mark.Open ≠ 0) →
      (findOpen parts close closeSize (j + 1) = findOpen parts close closeSize j ↔
        ((op.to_ - op.from_ + closeSize) % 3 = 0 ∧
         ¬((op.to_ - op.from_) % 3 = 0 ∧ closeSize % 3 = 0)))) ∧
    emphasisTree "a***b***c".toList =
      [Element.elt NodeType.Emphasis 1 8
        [Element.elt NodeType.EmphasisMark 1 2 [],
         Element.elt NodeType.StrongEmphasis 2 7
           [Element.elt NodeType.EmphasisMark 2 4 [],
            Element.elt NodeType.EmphasisMark 5 7 []],
         Element.elt NodeType.EmphasisMark 7 8 []]] := by
  refine ⟨?_, ?_, rfl⟩
  · intro parts close closeSize k j op h hdual hcond
    have := (findOpen_spec parts close closeSize k j op h).2.2.2.2.2.2
    refine this ⟨hdual, hcond.1, ?_⟩
    rcases Nat.eq_zero_or_pos ((op.to_ - op.from_) % 3) with h0 | h0
    · rcases Nat.eq_zero_or_pos (closeSize % 3) with h0' | h0'
      · exact absurd ⟨h0, h0'⟩ hcond.2
      · exact Or.inr (by omega)
    · exact Or.inl (by omega)
  · intro parts close closeSize j op hg hside htype hsz hatomic hdual
    constructor
    · intro heq
      by_contra hcond
      have hacc : findOpen parts close closeSize (j + 1) = some (j, op) := by
        rw [findOpen, hg]
        dsimp only
        rw [if_neg (by push_neg; exact ⟨hside, htype⟩)]
        rw [if_neg hsz, if_neg hatomic, if_neg ?hamb]
        case hamb =>
          push_neg at hcond
          rintro ⟨-, hmod, hnz⟩
          rcases hnz with hnz | hnz
          · exact absurd (hcond hmod).1 (by omega)
          · exact absurd (hcond hmod).2 (by omega)
      rw [heq] at hacc
      have := (findOpen_spec parts close closeSize j j op hacc).1
      omega
    · intro hcond
      rw [findOpen, hg]
      dsimp only
      rw [if_neg (by push_neg; exact ⟨hside, htype⟩)]
      rw [if_neg hsz, if_neg hatomic, if_pos ?hamb]
      case hamb =>
        refine ⟨hdual, hcond.1, ?_⟩
        rcases Nat.eq_zero_or_pos ((op.to_ - op.from_) % 3) with h0 | h0
        · rcases Nat.eq_zero_or_pos (closeSize % 3) with h0' | h0'
          · exact absurd ⟨h0, h0'⟩ hcond.2
          · exact Or.inr (by omega)
        · exact Or.inl (by omega)

/-- Witness for C4: the hypotheses discharged on a concrete
dual-capable candidate pair of lengths 4 and 2 (sum divisible by 3,
not both lengths divisible), which the scan skips. -/
theorem c4_ambiguity_rule_witness :
    ([some exDual4].get? 0 = some (some exDual4)) ∧
    (findOpen [some exDual4] exDual2 2 1 = findOpen [some exDual4] exDual2 2 0 ↔
      ((exDual4.to_ - exDual4.from_ + 2) % 3 = 0 ∧
       ¬((exDual4.to_ - exDual4.from_) % 3 = 0 ∧ (2 : Nat) % 3 = 0))) :=
  ⟨by decide, c4_ambiguity_rule.2.1 [some exDual4] exDual2 2 0 exDual4 (by decide) (by decide)
    (by decide) (by decide) (by decide) (by decide)⟩

/-- Counterexample to C5: in the text a*b*c the first asterisk run
(exAst1, dual-capable) is visited as a closer at index 0 and finds no
opener (first conjunct), yet it does not remain unmatched: the second
run later matches it as an opener, and the algorithm emits exactly
the Emphasis segment 1-4 whose opening mark of length 1 is exAst1's
character, so the failed closer does produce a Segment. -/
theorem c5_counterexample :
    scanDelims "a*b*c".toList = [exAst1, exAst2] ∧
    findOpen [some exAst1, some exAst2] exAst1 1 0 = none ∧
    collectSegments [exAst1, exAst2] 5 =
      [{ type := NodeType.Emphasis
         from_ := 1
         to_ := 4
         markSizeOpen := 1
         markSizeClose := 1 }] ∧
    (∃ s ∈ collectSegments [exAst1, exAst2] 5,
      s.from_ = exAst1.from_ ∧ s.markSizeOpen ≠ 0) := by
  refine ⟨rfl, rfl, rfl, ?_⟩
  refine ⟨{ type := NodeType.Emphasis
            from_ := 1
            to_ := 4
            markSizeOpen := 1
            markSizeClose := 1 }, by decide, by decide, by decide⟩

/-- C5 amended: a closer that finds no opener is simply skipped: the
loop advances to the next index leaving the parts list unchanged, so
the failed closer's run stays available and can later be matched as
an opener by a subsequent closer (as happens in a*b*c) or be peeled
as an incomplete opener. -/
theorem c5_amended_failed_closer_skipped :
    ∀ fuel parts i segments close,
      parts.get? i = some (some close) →
      Nat.land close.side Mark.Close ≠ 0 →
      close.to_ - close.from_ ≠ 0 →
      findOpen parts close (close.to_ - close.from_) i = none →
      matchLoop (fuel + 1) parts i segments = matchLoop fuel parts (i + 1) segments := by
  intro fuel parts i segments close hg hside hcs hfo
  have hi : i < parts.length := by
    by_contra hlen
    rw [List.get?_eq_none.mpr (by omega)] at hg
    cases hg
  rw [matchLoop]
  simp only [if_pos hi, hg]
  rw [if_neg hside]
  rw [if_neg hcs]
  simp only [hfo]

/-- Witness for C5 amended: the hypotheses discharged on the a*b*c
delimiters at the failed first closer. -/
theorem c5_amended_failed_closer_skipped_witness :
    ([some exAst1, some exAst2].get? 0 = some (some exAst1)) ∧
    Nat.land exAst1.side Mark.Close ≠ 0 ∧
    exAst1.to_ - exAst1.from_ ≠ 0 ∧
    findOpen [some exAst1, some exAst2] exAst1 (exAst1.to_ - exAst1.from_) 0 = none ∧
    matchLoop 6 [some exAst1, some exAst2] 0 [] =
      matchLoop 5 [some exAst1, some exAst2] 1 [] :=
  ⟨by decide, by decide, by decide, by decide,
    c5_amended_failed_closer_skipped 5 [some exAst1, some exAst2] 0 [] exAst1
      (by decide) (by decide) (by decide) (by decide)⟩

theorem scanInner_cons (s other : Segment) (rest : List (Option Segment))
    (h : other.from_ < s.to_) :
    scanInner s (some other :: rest) =
      ((if max other.from_ (contentStartOf s) < min other.to_ (contentEndOf s)
        then [clipSeg s other] else []) ++ (scanInner s rest).1,
       (if s.to_ < other.to_ then some (remSeg s other) else none) :: (scanInner s rest).2) := by
  rw [scanInner]
  rw [if_neg (by omega)]
  dsimp only
  refine congrArg₂ Prod.mk (congrArg₂ (· ++ ·) ?_ rfl) rfl
  by_cases hmax : max other.from_ (contentStartOf s) < min other.to_ (contentEndOf s)
  · rw [if_pos hmax]
    rw [if_pos ?hguard, if_pos ?hlt]
    case hguard =>
      constructor
      · simp only [contentEndOf] at hmax ⊢
        omega
      · simp only [contentStartOf] at hmax ⊢
        omega
    case hlt =>
      simp only [contentStartOf, contentEndOf] at hmax ⊢
      omega
    rfl
  · rw [if_neg hmax]
    split_ifs with hguard hlt
    · exfalso
      simp only [contentStartOf, contentEndOf] at hmax hlt
      omega
    · rfl
    · rfl

/-- Counterexample to C6: take the working segments exSegA
(Emphasis 0-20, closing mark length 1) and the overlapping exSegB
(StrongEmphasis 13-26).  exSegB starts before exSegA.to_ = 20 and
ends after it, so by the claim its inner copy would be truncated to
exactly 20; the code instead truncates it to the content region end
20 - 1 = 19: the inner copy is StrongEmphasis 13-19 and no pushed
inner segment ends at exSegA.to_.  (The outer remainder 20-26 with
openMarkLength 0 does match the claim, and the resulting tree shows
the fragment 13-19 as the emitted child.) -/
theorem c6_counterexample :
    scanInner exSegA [some exSegB] =
      ([{ type := NodeType.StrongEmphasis
          from_ := 13
          to_ := 19
          markSizeOpen := 2
          markSizeClose := 0 }],
       [some { type := NodeType.StrongEmphasis
               from_ := 20
               to_ := 26
               markSizeOpen := 0
               markSizeClose := 2 }]) ∧
    (∀ x ∈ (scanInner exSegA [some exSegB]).1, x.to_ ≠ exSegA.to_) ∧
    exSegB.from_ < exSegA.to_ ∧ exSegA.to_ < exSegB.to_ ∧
    buildTree [exSegA, exSegB] =
      [Element.elt NodeType.Emphasis 0 20
        [Element.elt NodeType.EmphasisMark 0 1 [],
         Element.elt NodeType.StrongEmphasis 13 19
           [Element.elt NodeType.EmphasisMark 13 15 []],
         Element.elt NodeType.EmphasisMark 19 20 []],
       Element.elt NodeType.StrongEmphasis 20 26
         [Element.elt NodeType.EmphasisMark 24 26 []]] := by
  exact ⟨rfl, by decide, by decide, by decide, rfl⟩

/-- C6 amended: for every subsequent working segment that starts
before S.to_, the inner child candidate is its intersection with S's
content region, given by clipSeg (so a fully nested segment is taken
as-is only when it already lies inside the content region, and an
overflowing segment's inner copy is truncated to S.to_ minus S's
closing mark length, not to S.to_, with closeMarkLength forced to 0);
an empty intersection contributes nothing; and the slot is replaced
by the outer remainder from S.to_ to the original end with
openMarkLength forced to 0 exactly when the segment extends past
S.to_, by null otherwise. -/
theorem c6_amended_fragmentation :
    ∀ s other rest, other.from_ < s.to_ →
      scanInner s (some other :: rest) =
        ((if max other.from_ (contentStartOf s) < min other.to_ (contentEndOf s)
          then [clipSeg s other] else []) ++ (scanInner s rest).1,
         (if s.to_ < other.to_ then some (remSeg s other) else none) :: (scanInner s rest).2) :=
  fun s other rest h => scanInner_cons s other rest h

/-- Witness for C6 amended: the characterization evaluated on the
counterexample pair. -/
theorem c6_amended_fragmentation_witness :
    exSegB.from_ < exSegA.to_ ∧
    scanInner exSegA (some exSegB :: []) =
      ((if max exSegB.from_ (contentStartOf exSegA) <
            min exSegB.to_ (contentEndOf exSegA)
        then [clipSeg exSegA exSegB] else []) ++ (scanInner exSegA []).1,
       (if exSegA.to_ < exSegB.to_ then some (remSeg exSegA exSegB) else none) ::
         (scanInner exSegA []).2) :=
  ⟨by decide, c6_amended_fragmentation exSegA exSegB [] (by decide)⟩

/-- C10: every subsequent working segment that starts before S.to_ is
intersected with S's content region: when the intersection is
non-empty the pushed child copy spans exactly
[max(from, contentStart), min(to, contentEnd)), its opening mark
zeroed whenever its start was moved (kept exactly when contentStart
is at or before its start) and its closing mark zeroed whenever its
end was moved; an empty intersection contributes no child at all;
and the part extending past S.to_ re-enters the working list as the
outer remainder while a segment not extending past S.to_ is removed
from it. -/
theorem c10_content_intersection :
    ∀ s other rest, other.from_ < s.to_ →
      ((max other.from_ (contentStartOf s) < min other.to_ (contentEndOf s) →
        (scanInner s (some other :: rest)).1 =
          { other with
            from_ := max other.from_ (contentStartOf s)
            to_ := min other.to_ (contentEndOf s)
            markSizeOpen :=
              (if contentStartOf s ≤ other.from_ then other.markSizeOpen else 0)
            markSizeClose :=
              (if other.to_ ≤ contentEndOf s then other.markSizeClose else 0) }
            :: (scanInner s rest).1) ∧
       (min other.to_ (contentEndOf s) ≤ max other.from_ (contentStartOf s) →
        (scanInner s (some other :: rest)).1 = (scanInner s rest).1) ∧
       (s.to_ < other.to_ →
        (scanInner s (some other :: rest)).2 =
          some (remSeg s other) :: (scanInner s rest).2) ∧
       (other.to_ ≤ s.to_ →
        (scanInner s (some other :: rest)).2 = none :: (scanInner s rest).2)) := by
  intro s other rest h
  have hc := scanInner_cons s other rest h
  refine ⟨?_, ?_, ?_, ?_⟩
  · intro hmax
    rw [hc]
    rw [if_pos hmax]
    simp only [List.cons_append, List.nil_append]
    refine congrArg₂ List.cons ?_ rfl
    simp only [clipSeg]
    refine congrArg₂ _ ?_ ?_
    · split_ifs with h1 h2 h2
      · rfl
      · exact absurd (by omega) h2
      · exact absurd (by omega) h1
      · rfl
    · split_ifs with h1 h2 h2
      · rfl
      · exact absurd (by omega) h2
      · exact absurd (by omega) h1
      · rfl
  · intro hmax
    rw [hc]
    rw [if_neg (by omega)]
    rfl
  · intro hlt
    rw [hc]
    rw [if_pos hlt]
  · intro hle
    rw [hc]
    rw [if_neg (show ¬s.to_ < other.to_ by omega)]

/-- Witness for C10: the characterization evaluated on the
counterexample pair (non-empty intersection and overflowing end). -/
theorem c10_content_intersection_witness :
    exSegB.from_ < exSegA.to_ ∧
    (max exSegB.from_ (contentStartOf exSegA) < min exSegB.to_ (contentEndOf exSegA)) ∧
    ((scanInner exSegA (some exSegB :: [])).1 =
      { exSegB with
        from_ := max exSegB.from_ (contentStartOf exSegA)
        to_ := min exSegB.to_ (contentEndOf exSegA)
        markSizeOpen :=
          (if contentStartOf exSegA ≤ exSegB.from_ then exSegB.markSizeOpen else 0)
        markSizeClose :=
          (if exSegB.to_ ≤ contentEndOf exSegA then exSegB.markSizeClose else 0) }
        :: (scanInner exSegA []).1) :=
  ⟨by decide, by decide,
    ((c10_content_intersection exSegA exSegB [] (by decide)).1 (by decide))⟩

theorem insertSeg_perm (a : Segment) : ∀ l : List Segment, (insertSeg a l).Perm (a :: l) := by
  intro l
  induction l with
  | nil => simp [insertSeg]
  | cons b bs ih =>
    rw [insertSeg]
    split_ifs
    · exact ((ih.cons b).trans (List.Perm.swap a b bs)).symm.symm
    · exact List.Perm.refl _

theorem sortSegs_perm : ∀ (l acc : List Segment),
    (l.foldl (fun acc a => insertSeg a acc) acc).Perm (acc ++ l) := by
  intro l
  induction l with
  | nil => intro acc; simp
  | cons x xs ih =>
    intro acc
    rw [List.foldl_cons]
    refine (ih (insertSeg x acc)).trans ?_
    refine (List.Perm.append_right xs (insertSeg_perm x acc)).trans ?_
    exact List.perm_middle.symm

theorem sortSegs_mem (l : List Segment) (a : Segment) : a ∈ sortSegs l ↔ a ∈ l := by
  have := (sortSegs_perm l []).mem_iff (a := a)
  simpa [sortSegs] using this

theorem scanInner_snd_lt (s : Segment) :
    ∀ l : List (Option Segment), (∀ a : Segment, some a ∈ l → a.from_ < a.to_) →
      ∀ a : Segment, some a ∈ (scanInner s l).2 → a.from_ < a.to_ := by
  intro l
  induction l with
  | nil => intro h a ha; simp [scanInner] at ha
  | cons x rest ih =>
    intro h a ha
    match x with
    | none =>
      rw [scanInner] at ha
      rcases List.mem_cons.mp ha with h1 | h1
      · cases h1
      · exact h a (List.mem_cons_of_mem _ h1)
    | some other =>
      rw [scanInner] at ha
      split_ifs at ha with hbr hrem
      · exact h a ha
      · rcases List.mem_cons.mp ha with h1 | h1
        · cases h1
          exact hrem
        · exact ih (fun b hb => h b (List.mem_cons_of_mem _ hb)) a h1
      · rcases List.mem_cons.mp ha with h1 | h1
        · simp at h1
        · exact ih (fun b hb => h b (List.mem_cons_of_mem _ hb)) a h1

theorem buildTreeGo_disjoint :
    ∀ fuel (l : List (Option Segment)) pos,
      (∀ a : Segment, some a ∈ l → a.from_ < a.to_) →
      (∀ n ∈ buildTreeGo fuel l pos, pos ≤ n.from_ ∧ n.from_ < n.to_) ∧
      List.Pairwise (fun a b : Element => a.to_ ≤ b.from_ ∧ a.from_ < b.from_)
        (buildTreeGo fuel l pos) := by
  intro fuel
  induction fuel with
  | zero => intro l pos h; simp [buildTreeGo]
  | succ fuel ih =>
    intro l pos h
    match l with
    | [] => simp [buildTreeGo]
    | none :: rest =>
      rw [buildTreeGo]
      exact ih rest pos (fun a ha => h a (List.mem_cons_of_mem _ ha))
    | some s :: rest =>
      rw [buildTreeGo]
      by_cases hskip : s.from_ < pos
      · rw [if_pos hskip]
        exact ih rest pos (fun a ha => h a (List.mem_cons_of_mem _ ha))
      · rw [if_neg hskip]
        dsimp only
        have hs : s.from_ < s.to_ := h s (List.mem_cons_self _ _)
        have hrest : ∀ a : Segment, some a ∈ rest → a.from_ < a.to_ :=
          fun a ha => h a (List.mem_cons_of_mem _ ha)
        have htail := ih (scanInner s rest).2 s.to_ (scanInner_snd_lt s rest hrest)
        constructor
        · intro n hn
          rcases List.mem_cons.mp hn with h1 | h1
          · subst h1
            show pos ≤ s.from_ ∧ s.from_ < s.to_
            exact ⟨by omega, hs⟩
          · have hmem := (htail.1 n h1)
            exact ⟨by omega, hmem.2⟩
        · refine List.Pairwise.cons ?_ htail.2
          intro m hm
          have hmem := htail.1 m hm
          show s.to_ ≤ m.from_ ∧ s.from_ < m.from_
          exact ⟨hmem.1, by omega⟩

/-- C7: for every input segment list whose segments are non-degenerate
(end greater than start, the Segment data-model invariant), the
top-level Element list returned by the Builder is strictly sorted by
start (so sorted ascending with the end-descending tie-break holding
vacuously) and the spans are mutually non-overlapping: each node ends
at or before the next one starts. -/
theorem c7_toplevel_sorted_disjoint :
    ∀ segments : List Segment, (∀ s ∈ segments, s.from_ < s.to_) →
      List.Pairwise (fun a b : Element => a.to_ ≤ b.from_ ∧ a.from_ < b.from_)
        (buildTree segments) := by
  intro segments h
  refine (buildTreeGo_disjoint (segments.length + 1)
    ((sortSegs segments).map some) 0 ?_).2
  intro a ha
  rcases List.mem_map.mp ha with ⟨b, hb, hba⟩
  cases hba
  exact h a ((sortSegs_mem segments a).mp hb)

/-- Witness for C7: the hypothesis discharged on the two overlapping
segments of the overlap example. -/
theorem c7_toplevel_sorted_disjoint_witness :
    (∀ s ∈ [exSegA, exSegB], s.from_ < s.to_) ∧
    List.Pairwise (fun a b : Element => a.to_ ≤ b.from_ ∧ a.from_ < b.from_)
      (buildTree [exSegA, exSegB]) :=
  ⟨by decide, c7_toplevel_sorted_disjoint [exSegA, exSegB] (by decide)⟩

theorem ivDisj_mono (a b c d a' b' c' d' : Nat)
    (h : ivDisj a b c d) (h1 : subIv a b a' b') (h2 : subIv c d c' d') :
    ivDisj a' b' c' d' := by
  simp only [ivDisj, subIv] at *
  omega

theorem noStraddlePt_mono (x x' : Segment) (p : Nat)
    (h : noStraddlePt x p)
    (h1 : subIv x.from_ (x.from_ + x.markSizeOpen) x'.from_ (x'.from_ + x'.markSizeOpen))
    (h2 : subIv (x.to_ - x.markSizeClose) x.to_ (x'.to_ - x'.markSizeClose) x'.to_) :
    noStraddlePt x' p := by
  simp only [noStraddlePt, subIv] at *
  omega

theorem sepRel_of_sub (x y x' y' : Segment)
    (hxy : sepRel x y)
    (mxo : subIv x.from_ (x.from_ + x.markSizeOpen) x'.from_ (x'.from_ + x'.markSizeOpen))
    (mxc : subIv (x.to_ - x.markSizeClose) x.to_ (x'.to_ - x'.markSizeClose) x'.to_)
    (myo : subIv y.from_ (y.from_ + y.markSizeOpen) y'.from_ (y'.from_ + y'.markSizeOpen))
    (myc : subIv (y.to_ - y.markSizeClose) y.to_ (y'.to_ - y'.markSizeClose) y'.to_)
    (nxs : noStraddlePt x (contentStartOf y')) (nxe : noStraddlePt x (contentEndOf y'))
    (nys : noStraddlePt y (contentStartOf x')) (nye : noStraddlePt y (contentEndOf x')) :
    sepRel x' y' := by
  obtain ⟨⟨d1, d2, d3, d4⟩, -, -, -, -⟩ := hxy
  refine ⟨⟨?_, ?_, ?_, ?_⟩, ?_, ?_, ?_, ?_⟩
  · exact ivDisj_mono _ _ _ _ _ _ _ _ d1 mxo myo
  · exact ivDisj_mono _ _ _ _ _ _ _ _ d2 mxo myc
  · exact ivDisj_mono _ _ _ _ _ _ _ _ d3 mxc myo
  · exact ivDisj_mono _ _ _ _ _ _ _ _ d4 mxc myc
  · exact noStraddlePt_mono x x' _ nxs mxo mxc
  · exact noStraddlePt_mono x x' _ nxe mxo mxc
  · exact noStraddlePt_mono y y' _ nys myo myc
  · exact noStraddlePt_mono y y' _ nye myo myc

theorem sepRel_symm (x y : Segment) (h : sepRel x y) : sepRel y x := by
  obtain ⟨⟨d1, d2, d3, d4⟩, n1, n2, n3, n4⟩ := h
  refine ⟨⟨?_, ?_, ?_, ?_⟩, n3, n4, n1, n2⟩ <;>
    simp only [ivDisj] at * <;> omega

theorem straddle_blockEnd (s x : Segment)
    (d3 : ivDisj (s.to_ - s.markSizeClose) s.to_ x.from_ (x.from_ + x.markSizeOpen))
    (d4 : ivDisj (s.to_ - s.markSizeClose) s.to_ (x.to_ - x.markSizeClose) x.to_)
    (n4 : noStraddlePt x (contentEndOf s)) :
    noStraddlePt x s.to_ := by
  rcases Nat.eq_zero_or_pos s.markSizeClose with h0 | h0
  · simpa [contentEndOf, h0] using n4
  · simp only [ivDisj, noStraddlePt, contentEndOf] at *
    omega

theorem clip_marks (s b : Segment)
    (h : max b.from_ (contentStartOf s) < min b.to_ (contentEndOf s)) :
    subIv b.from_ (b.from_ + b.markSizeOpen)
      (clipSeg s b).from_ ((clipSeg s b).from_ + (clipSeg s b).markSizeOpen) ∧
    subIv (b.to_ - b.markSizeClose) b.to_
      ((clipSeg s b).to_ - (clipSeg s b).markSizeClose) (clipSeg s b).to_ ∧
    (contentStartOf (clipSeg s b) = contentStartOf b ∨
     contentStartOf (clipSeg s b) = contentStartOf s) ∧
    (contentEndOf (clipSeg s b) = contentEndOf b ∨
     contentEndOf (clipSeg s b) = contentEndOf s) ∧
    (clipSeg s b).type = b.type ∧
    contentStartOf s ≤ (clipSeg s b).from_ ∧ (clipSeg s b).to_ ≤ contentEndOf s ∧
    (clipSeg s b).from_ < (clipSeg s b).to_ := by
  simp only [clipSeg, subIv, contentStartOf, contentEndOf] at *
  split_ifs with h1 h2 h2 <;>
    refine ⟨by omega, by omega, ?_, ?_, trivial, by omega, by omega, by omega⟩ <;> omega

theorem clip_fit (s b : Segment)
    (hb : b.from_ + b.markSizeOpen + b.markSizeClose ≤ b.to_)
    (n3 : noStraddlePt b (contentStartOf s))
    (n4 : noStraddlePt b (contentEndOf s))
    (h : max b.from_ (contentStartOf s) < min b.to_ (contentEndOf s)) :
    (clipSeg s b).from_ + (clipSeg s b).markSizeOpen + (clipSeg s b).markSizeClose ≤
      (clipSeg s b).to_ := by
  simp only [clipSeg, noStraddlePt, contentStartOf, contentEndOf] at *
  split_ifs <;> omega

theorem rem_marks (s b : Segment) :
    subIv b.from_ (b.from_ + b.markSizeOpen)
      (remSeg s b).from_ ((remSeg s b).from_ + (remSeg s b).markSizeOpen) ∧
    subIv (b.to_ - b.markSizeClose) b.to_
      ((remSeg s b).to_ - (remSeg s b).markSizeClose) (remSeg s b).to_ ∧
    contentStartOf (remSeg s b) = s.to_ ∧
    contentEndOf (remSeg s b) = contentEndOf b ∧
    (remSeg s b).type = b.type := by
  simp only [remSeg, subIv, contentStartOf, contentEndOf]
  exact ⟨by omega, by omega, by omega, trivial, trivial⟩

theorem rem_fit (s b : Segment) (hov : s.to_ < b.to_)
    (hbfit : b.from_ + b.markSizeOpen + b.markSizeClose ≤ b.to_)
    (hstr : noStraddlePt b s.to_) :
    (remSeg s b).from_ + (remSeg s b).markSizeOpen + (remSeg s b).markSizeClose ≤
      (remSeg s b).to_ ∧ (remSeg s b).from_ < (remSeg s b).to_ := by
  simp only [remSeg, noStraddlePt] at *
  omega

theorem subIv_refl (a b : Nat) : subIv a b a b := Or.inl ⟨Nat.le_refl a, Nat.le_refl b⟩

theorem clip_sep (s a b : Segment)
    (hsa : sepRel s a) (hsb : sepRel s b) (hab : sepRel a b)
    (hpa : max a.from_ (contentStartOf s) < min a.to_ (contentEndOf s))
    (hpb : max b.from_ (contentStartOf s) < min b.to_ (contentEndOf s)) :
    sepRel (clipSeg s a) (clipSeg s b) := by
  obtain ⟨mao, mac, hacs, hace, -, -, -, -⟩ := clip_marks s a hpa
  obtain ⟨mbo, mbc, hbcs, hbce, -, -, -, -⟩ := clip_marks s b hpb
  refine sepRel_of_sub a b (clipSeg s a) (clipSeg s b) hab mao mac mbo mbc ?_ ?_ ?_ ?_
  · rcases hbcs with h | h <;> rw [h]
    · exact hab.2.1
    · exact hsa.2.2.2.1
  · rcases hbce with h | h <;> rw [h]
    · exact hab.2.2.1
    · exact hsa.2.2.2.2
  · rcases hacs with h | h <;> rw [h]
    · exact hab.2.2.2.1
    · exact hsb.2.2.2.1
  · rcases hace with h | h <;> rw [h]
    · exact hab.2.2.2.2
    · exact hsb.2.2.2.2

theorem rem_sep_left (s b x : Segment)
    (hsb : sepRel s b) (hsx : sepRel s x) (hbx : sepRel b x) :
    sepRel (remSeg s b) x := by
  obtain ⟨mbo, mbc, hcs, hce, -⟩ := rem_marks s b
  refine sepRel_of_sub b x (remSeg s b) x hbx mbo mbc (subIv_refl _ _) (subIv_refl _ _)
    hbx.2.1 hbx.2.2.1 ?_ ?_
  · rw [hcs]
    exact straddle_blockEnd s x hsx.1.2.2.1 hsx.1.2.2.2 hsx.2.2.2.2
  · rw [hce]
    exact hbx.2.2.2.2

theorem rem_sep_both (s b c : Segment)
    (hsb : sepRel s b) (hsc : sepRel s c) (hbc : sepRel b c) :
    sepRel (remSeg s b) (remSeg s c) := by
  obtain ⟨mbo, mbc, hbs, hbe, -⟩ := rem_marks s b
  obtain ⟨mco, mcc, hcs, hce, -⟩ := rem_marks s c
  refine sepRel_of_sub b c (remSeg s b) (remSeg s c) hbc mbo mbc mco mcc ?_ ?_ ?_ ?_
  · rw [hcs]
    exact straddle_blockEnd s b hsb.1.2.2.1 hsb.1.2.2.2 hsb.2.2.2.2
  · rw [hce]
    exact hbc.2.2.1
  · rw [hbs]
    exact straddle_blockEnd s c hsc.1.2.2.1 hsc.1.2.2.2 hsc.2.2.2.2
  · rw [hbe]
    exact hbc.2.2.2.2

theorem clip_good (s b : Segment) (hb : segBasic b) (hsb : sepRel s b)
    (hp : max b.from_ (contentStartOf s) < min b.to_ (contentEndOf s)) :
    segBasic (clipSeg s b) ∧ contentStartOf s ≤ (clipSeg s b).from_ ∧
    (clipSeg s b).to_ ≤ contentEndOf s := by
  obtain ⟨-, -, -, -, hty, h1, h2, h3⟩ := clip_marks s b hp
  refine ⟨⟨h3, clip_fit s b hb.2.1 hsb.2.2.2.1 hsb.2.2.2.2 hp, ?_⟩, h1, h2⟩
  rw [hty]
  exact hb.2.2

theorem rem_good (s b : Segment) (hb : segBasic b) (hsb : sepRel s b)
    (hov : s.to_ < b.to_) :
    segBasic (remSeg s b) := by
  have hstr : noStraddlePt b s.to_ :=
    straddle_blockEnd s b hsb.1.2.2.1 hsb.1.2.2.2 hsb.2.2.2.2
  obtain ⟨hfit, hlt⟩ := rem_fit s b hov hb.2.1 hstr
  refine ⟨hlt, hfit, ?_⟩
  simpa [remSeg] using hb.2.2

theorem scanInner_good (s : Segment) (hs : segBasic s) :
    ∀ (l : List (Option Segment)) (lo hi : Nat),
      (∀ a : Segment, some a ∈ l → segBasic a ∧ lo ≤ a.from_ ∧ a.to_ ≤ hi) →
      List.Pairwise optSep l →
      (∀ a : Segment, some a ∈ l → sepRel s a) →
      lo ≤ s.from_ → s.to_ ≤ hi →
      ((∀ a ∈ (scanInner s l).1,
          segBasic a ∧ contentStartOf s ≤ a.from_ ∧ a.to_ ≤ contentEndOf s) ∧
       List.Pairwise sepRel (scanInner s l).1 ∧
       (∀ b : Segment, segBasic b → sepRel s b →
          (∀ a : Segment, some a ∈ l → sepRel b a) →
          max b.from_ (contentStartOf s) < min b.to_ (contentEndOf s) →
          ∀ x ∈ (scanInner s l).1, sepRel (clipSeg s b) x) ∧
       (∀ a : Segment, some a ∈ (scanInner s l).2 →
          segBasic a ∧ lo ≤ a.from_ ∧ a.to_ ≤ hi) ∧
       (∀ b : Segment, segBasic b → sepRel s b →
          (∀ a : Segment, some a ∈ l → sepRel b a) →
          ∀ x : Segment, some x ∈ (scanInner s l).2 → sepRel (remSeg s b) x) ∧
       List.Pairwise optSep (scanInner s l).2) := by
  intro l
  induction l with
  | nil =>
    intro lo hi hl hP hsl hlo hhi
    simp only [scanInner]
    refine ⟨by simp, by simp, by simp, by simp, by simp, by simp⟩
  | cons hd rest ih =>
    intro lo hi hl hP hsl hlo hhi
    match hd with
    | none =>
      rw [scanInner]
      refine ⟨by simp, by simp, by simp, hl, ?_, hP⟩
      intro b hbB hbS hball x hx
      exact rem_sep_left s b x hbS (hsl x hx) (hball x hx)
    | some other =>
      have hother := hl other (List.mem_cons_self _ _)
      have hsother : sepRel s other := hsl other (List.mem_cons_self _ _)
      have hrel : ∀ y ∈ rest, optSep (some other) y := (List.pairwise_cons.mp hP).1
      have hPrest : List.Pairwise optSep rest := (List.pairwise_cons.mp hP).2
      have hrelS : ∀ a : Segment, some a ∈ rest → sepRel other a := by
        intro a ha
        have := hrel (some a) ha
        exact this
      have hl' : ∀ a : Segment, some a ∈ rest → segBasic a ∧ lo ≤ a.from_ ∧ a.to_ ≤ hi :=
        fun a ha => hl a (List.mem_cons_of_mem _ ha)
      have hsl' : ∀ a : Segment, some a ∈ rest → sepRel s a :=
        fun a ha => hsl a (List.mem_cons_of_mem _ ha)
      by_cases hbr : s.to_ ≤ other.from_
      · rw [scanInner, if_pos hbr]
        refine ⟨by simp, by simp, by simp, hl, ?_, hP⟩
        intro b hbB hbS hball x hx
        exact rem_sep_left s b x hbS (hsl x hx) (hball x hx)
      · have hcons := scanInner_cons s other rest (by omega)
        rw [hcons]
        obtain ⟨ih1, ih2, ih3, ih4, ih5, ih6⟩ := ih lo hi hl' hPrest hsl' hlo hhi
        dsimp only
        refine ⟨?_, ?_, ?_, ?_, ?_, ?_⟩
        · intro a ha
          rcases List.mem_append.mp ha with h1 | h1
          · split_ifs at h1 with hp
            · rcases List.mem_singleton.mp h1 with rfl
              exact clip_good s other hother.1 hsother hp
            · simp at h1
          · exact ih1 a h1
        · rw [List.pairwise_append]
          refine ⟨?_, ih2, ?_⟩
          · split_ifs with hp
            · exact List.pairwise_singleton _ _
            · exact List.Pairwise.nil
          · intro x hx y hy
            split_ifs at hx with hp
            · rcases List.mem_singleton.mp hx with rfl
              exact ih3 other hother.1 hsother hrelS hp y hy
            · simp at hx
        · intro b hbB hbS hball hpb x hx
          rcases List.mem_append.mp hx with h1 | h1
          · split_ifs at h1 with hp
            · rcases List.mem_singleton.mp h1 with rfl
              exact clip_sep s b other hbS hsother (hball other (List.mem_cons_self _ _))
                hpb hp
            · simp at h1
          · exact ih3 b hbB hbS (fun a ha => hball a (List.mem_cons_of_mem _ ha)) hpb x h1
        · intro a ha
          rcases List.mem_cons.mp ha with h1 | h1
          · split_ifs at h1 with hov
            · cases h1
              refine ⟨rem_good s other hother.1 hsother hov, ?_, ?_⟩
              · show lo ≤ s.to_
                have := hs.1
                omega
              · show other.to_ ≤ hi
                exact hother.2.2
          · exact ih4 a h1
        · intro b hbB hbS hball x hx
          rcases List.mem_cons.mp hx with h1 | h1
          · split_ifs at h1 with hov
            · cases h1
              exact rem_sep_both s b other hbS hsother (hball other (List.mem_cons_self _ _))
          · exact ih5 b hbB hbS (fun a ha => hball a (List.mem_cons_of_mem _ ha)) x h1
        · rw [List.pairwise_cons]
          refine ⟨?_, ih6⟩
          intro y hy
          split_ifs with hov
          · match y with
            | none => trivial
            | some x =>
              exact ih5 other hother.1 hsother hrelS x hy
          · trivial

theorem nodesChain_of_bound : ∀ (xs : List Element) (p q : Nat),
    nodesChain p xs = true → (∀ n ∈ xs, q ≤ n.from_) → nodesChain q xs = true := by
  intro xs p q h hb
  cases xs with
  | nil => rfl
  | cons c cs =>
    simp only [nodesChain, Bool.and_eq_true, decide_eq_true_eq] at h ⊢
    exact ⟨hb c (List.mem_cons_self _ _), h.2⟩

theorem chainEnd_le : ∀ (xs : List Element) (lo h : Nat),
    lo ≤ h → (∀ n ∈ xs, n.to_ ≤ h) → chainEnd lo xs ≤ h := by
  intro xs
  induction xs with
  | nil => intro lo h h1 h2; exact h1
  | cons c cs ih =>
    intro lo h h1 h2
    rw [chainEnd]
    exact ih c.to_ h (h2 c (List.mem_cons_self _ _))
      (fun n hn => h2 n (List.mem_cons_of_mem _ hn))

theorem nodesChain_append : ∀ (xs : List Element) (lo : Nat) (ys : List Element),
    nodesChain lo (xs ++ ys) =
      (nodesChain lo xs && nodesChain (chainEnd lo xs) ys) := by
  intro xs
  induction xs with
  | nil => intro lo ys; simp [nodesChain, chainEnd]
  | cons c cs ih =>
    intro lo ys
    simp only [List.cons_append, nodesChain, chainEnd, List.append_eq, ih c.to_ ys,
      Bool.and_assoc]

theorem forestOk_append : ∀ xs ys : List Element,
    forestOk (xs ++ ys) = (forestOk xs && forestOk ys) := by
  intro xs
  induction xs with
  | nil => intro ys; simp [forestOk]
  | cons x rest ih =>
    intro ys
    obtain ⟨t, f, u, cs⟩ := x
    simp only [List.cons_append, forestOk, ih, Bool.and_assoc]

theorem forestOk_leaf (f u : Nat) :
    forestOk [Element.elt NodeType.EmphasisMark f u []] = true := by
  simp [forestOk, nodesChain, childrenFit]

theorem childrenOk_assemble (t : NodeType) (f u o c : Nat) (inner : List Element)
    (ht : t ≠ NodeType.EmphasisMark)
    (hfu : f + o + c ≤ u) (hf : f < u)
    (hb : ∀ n ∈ inner, f + o ≤ n.from_ ∧ n.from_ < n.to_ ∧ n.to_ ≤ u - c)
    (hchain : nodesChain 0 inner = true)
    (hforest : forestOk inner = true) :
    forestOk [Element.elt t f u
      ((if t ≠ NodeType.EmphasisMark ∧ 0 < o then
          [Element.elt NodeType.EmphasisMark f (f + o) []] else [])
       ++ inner ++
       (if t ≠ NodeType.EmphasisMark ∧ 0 < c then
          [Element.elt NodeType.EmphasisMark (u - c) u []] else []))] = true := by
  have hchainI : nodesChain (f + o) inner = true :=
    nodesChain_of_bound inner 0 (f + o) hchain (fun n hn => (hb n hn).1)
  have hchainF : nodesChain f inner = true :=
    nodesChain_of_bound inner 0 f hchain (fun n hn => by have := (hb n hn).1; omega)
  have hendI : chainEnd (f + o) inner ≤ u - c :=
    chainEnd_le inner (f + o) (u - c) (by omega) (fun n hn => (hb n hn).2.2)
  have hendF : chainEnd f inner ≤ u - c :=
    chainEnd_le inner f (u - c) (by omega) (fun n hn => (hb n hn).2.2)
  have hfitI : childrenFit u inner = true := by
    simp only [childrenFit, List.all_eq_true, Bool.and_eq_true, decide_eq_true_eq]
    intro n hn
    have := hb n hn
    omega
  rcases Nat.eq_zero_or_pos o with ho | ho <;> rcases Nat.eq_zero_or_pos c with hc | hc
  · rw [if_neg (by omega), if_neg (by omega)]
    simp only [List.nil_append, List.append_nil, forestOk, Bool.and_eq_true]
    exact ⟨⟨⟨⟨hchainF, hfitI⟩, by simp [ht]⟩, hforest⟩, trivial⟩
  · rw [if_neg (by omega), if_pos ⟨ht, hc⟩]
    simp only [List.nil_append, forestOk, Bool.and_eq_true]
    refine ⟨⟨⟨⟨?_, ?_⟩, by simp [ht]⟩, ?_⟩, trivial⟩
    · rw [nodesChain_append]
      refine (Bool.and_eq_true _ _).mpr ⟨hchainF, ?_⟩
      simp only [nodesChain, Element.from_, Element.to_, Bool.and_eq_true,
        decide_eq_true_eq]
      exact ⟨hendF, trivial⟩
    · rw [childrenFit, List.all_append]
      refine (Bool.and_eq_true _ _).mpr ⟨?_, ?_⟩
      · rw [childrenFit] at hfitI
        exact hfitI
      · simp only [List.all_cons, List.all_nil, Element.from_, Element.to_,
          Bool.and_eq_true, decide_eq_true_eq]
        exact ⟨⟨by omega, by omega⟩, trivial⟩
    · rw [forestOk_append]
      exact (Bool.and_eq_true _ _).mpr ⟨hforest, forestOk_leaf _ _⟩
  · rw [if_pos ⟨ht, ho⟩, if_neg (by omega)]
    rw [List.singleton_append, List.append_nil]
    simp only [forestOk, Bool.and_eq_true]
    refine ⟨⟨⟨⟨?_, ?_⟩, by simp [ht]⟩, ?_⟩, trivial⟩
    · simp only [nodesChain, Element.from_, Element.to_, Bool.and_eq_true,
        decide_eq_true_eq]
      exact ⟨Nat.le_refl f, hchainI⟩
    · rw [childrenFit, List.all_cons]
      refine (Bool.and_eq_true _ _).mpr ⟨?_, ?_⟩
      · simp only [Element.from_, Element.to_, Bool.and_eq_true, decide_eq_true_eq]
        exact ⟨by omega, by omega⟩
      · rw [childrenFit] at hfitI
        exact hfitI
    · exact ⟨⟨⟨⟨rfl, rfl⟩, by simp⟩, trivial⟩, hforest⟩
  · rw [if_pos ⟨ht, ho⟩, if_pos ⟨ht, hc⟩]
    rw [List.append_assoc, List.singleton_append]
    simp only [forestOk, Bool.and_eq_true]
    refine ⟨⟨⟨⟨?_, ?_⟩, by simp [ht]⟩, ?_⟩, trivial⟩
    · simp only [nodesChain, Element.from_, Element.to_, Bool.and_eq_true,
        decide_eq_true_eq]
      refine ⟨Nat.le_refl f, ?_⟩
      rw [nodesChain_append]
      refine (Bool.and_eq_true _ _).mpr ⟨hchainI, ?_⟩
      simp only [nodesChain, Element.from_, Element.to_, Bool.and_eq_true,
        decide_eq_true_eq]
      exact ⟨hendI, trivial⟩
    · rw [childrenFit, List.all_cons, List.all_append]
      refine (Bool.and_eq_true _ _).mpr ⟨?_, (Bool.and_eq_true _ _).mpr ⟨?_, ?_⟩⟩
      · simp only [Element.from_, Element.to_, Bool.and_eq_true, decide_eq_true_eq]
        exact ⟨by omega, by omega⟩
      · rw [childrenFit] at hfitI
        exact hfitI
      · simp only [List.all_cons, List.all_nil, Element.from_, Element.to_,
          Bool.and_eq_true, decide_eq_true_eq]
        exact ⟨⟨by omega, by omega⟩, trivial⟩
    · refine ⟨⟨⟨⟨rfl, rfl⟩, by simp⟩, trivial⟩, ?_⟩
      rw [forestOk_append]
      exact (Bool.and_eq_true _ _).mpr ⟨hforest, forestOk_leaf _ _⟩

theorem le_maxTo : ∀ (l : List Segment) (a : Segment), a ∈ l → a.to_ ≤ maxTo l := by
  intro l
  induction l with
  | nil => intro a ha; cases ha
  | cons x rest ih =>
    intro a ha
    rw [maxTo]
    rcases List.mem_cons.mp ha with h1 | h1
    · subst h1; omega
    · have := ih a h1; omega

theorem forestOk_of_mem : ∀ (l : List Element) (n : Element),
    forestOk l = true → n ∈ l → forestOk [n] = true := by
  intro l
  induction l with
  | nil => intro n h hn; cases hn
  | cons x rest ih =>
    intro n h hn
    obtain ⟨t, f, u, cs⟩ := x
    simp only [forestOk, Bool.and_eq_true] at h
    rcases List.mem_cons.mp hn with h1 | h1
    · subst h1
      simp only [forestOk, Bool.and_eq_true]
      exact ⟨⟨⟨⟨h.1.1.1.1, h.1.1.1.2⟩, h.1.1.2⟩, h.1.2⟩, trivial⟩
    · exact ih n h.2 h1

theorem buildTreeGo_ok :
    ∀ fuel (l : List (Option Segment)) (pos lo hi : Nat),
      (∀ a : Segment, some a ∈ l → segBasic a ∧ lo ≤ a.from_ ∧ a.to_ ≤ hi) →
      List.Pairwise optSep l →
      (∀ n ∈ buildTreeGo fuel l pos, lo ≤ n.from_ ∧ n.from_ < n.to_ ∧ n.to_ ≤ hi) ∧
      nodesChain pos (buildTreeGo fuel l pos) = true ∧
      forestOk (buildTreeGo fuel l pos) = true := by
  intro fuel
  induction fuel with
  | zero =>
    intro l pos lo hi hl hP
    refine ⟨by simp [buildTreeGo], by simp [buildTreeGo, nodesChain],
      by simp [buildTreeGo, forestOk]⟩
  | succ fuel ih =>
    intro l pos lo hi hl hP
    match l with
    | [] =>
      refine ⟨by simp [buildTreeGo], by simp [buildTreeGo, nodesChain],
        by simp [buildTreeGo, forestOk]⟩
    | none :: rest =>
      rw [buildTreeGo]
      exact ih rest pos lo hi (fun a ha => hl a (List.mem_cons_of_mem _ ha))
        (List.pairwise_cons.mp hP).2
    | some s :: rest =>
      rw [buildTreeGo]
      by_cases hskip : s.from_ < pos
      · rw [if_pos hskip]
        exact ih rest pos lo hi (fun a ha => hl a (List.mem_cons_of_mem _ ha))
          (List.pairwise_cons.mp hP).2
      · rw [if_neg hskip]
        dsimp only
        have hsB := hl s (List.mem_cons_self _ _)
        have hPdec := List.pairwise_cons.mp hP
        have hsl : ∀ a : Segment, some a ∈ rest → sepRel s a :=
          fun a ha => hPdec.1 (some a) ha
        obtain ⟨sg1, sg2, sg3, sg4, sg5, sg6⟩ :=
          scanInner_good s hsB.1 rest lo hi
            (fun a ha => hl a (List.mem_cons_of_mem _ ha)) hPdec.2 hsl hsB.2.1 hsB.2.2
        have hl_inner : ∀ a : Segment,
            some a ∈ (sortSegs (scanInner s rest).1).map some →
            segBasic a ∧ contentStartOf s ≤ a.from_ ∧ a.to_ ≤ contentEndOf s := by
          intro a ha
          simp only [List.mem_map, Option.some.injEq] at ha
          obtain ⟨b, hb, rfl⟩ := ha
          exact sg1 b ((sortSegs_mem _ _).mp hb)
        have hP_inner : List.Pairwise optSep ((sortSegs (scanInner s rest).1).map some) := by
          rw [List.pairwise_map]
          have hperm := sortSegs_perm (scanInner s rest).1 []
          simp only [List.nil_append] at hperm
          exact (hperm.pairwise_iff (fun h => sepRel_symm _ _ h)).mpr sg2
        obtain ⟨ihI1, ihI2, ihI3⟩ :=
          ih ((sortSegs (scanInner s rest).1).map some) 0 (contentStartOf s)
            (contentEndOf s) hl_inner hP_inner
        obtain ⟨ihT1, ihT2, ihT3⟩ := ih (scanInner s rest).2 s.to_ lo hi sg4 sg6
        refine ⟨?_, ?_, ?_⟩
        · intro n hn
          rcases List.mem_cons.mp hn with h1 | h1
          · subst h1
            show lo ≤ s.from_ ∧ s.from_ < s.to_ ∧ s.to_ ≤ hi
            exact ⟨hsB.2.1, hsB.1.1, hsB.2.2⟩
          · exact ihT1 n h1
        · simp only [nodesChain, Element.from_, Element.to_, Bool.and_eq_true,
            decide_eq_true_eq]
          exact ⟨by omega, ihT2⟩
        · have hcons : ∀ (x : Element) (xs : List Element), x :: xs = [x] ++ xs :=
            fun x xs => rfl
          rw [hcons, forestOk_append]
          refine (Bool.and_eq_true _ _).mpr ⟨?_, ihT3⟩
          refine childrenOk_assemble s.type s.from_ s.to_ s.markSizeOpen s.markSizeClose
            _ hsB.1.2.2 hsB.1.2.1 hsB.1.1 ?_ ihI2 ihI3
          intro n hn
          have := ihI1 n hn
          simp only [contentStartOf, contentEndOf] at this
          exact ⟨this.1, this.2.1, this.2.2⟩

/-- C8: for every flat segment list carrying the Matcher's output
invariants (each segment non-degenerate with marks fitting inside its
span and a container type, and distinct segments having pairwise
disjoint mark intervals none of which straddles another segment's
content-region boundary), every Element emitted by the Builder
satisfies the node invariant: its children are mutually
non-overlapping, sorted ascending by start, fully contained in the
parent span, and every EmphasisMark node is a leaf, recursively. -/
theorem c8_node_invariant :
    ∀ segments : List Segment,
      (∀ a ∈ segments, segBasic a) →
      List.Pairwise sepRel segments →
      ∀ n ∈ buildTree segments, nodeOk n = true := by
  intro segs hB hP n hn
  have hl : ∀ a : Segment, some a ∈ (sortSegs segs).map some →
      segBasic a ∧ 0 ≤ a.from_ ∧ a.to_ ≤ maxTo segs := by
    intro a ha
    simp only [List.mem_map, Option.some.injEq] at ha
    obtain ⟨b, hb, rfl⟩ := ha
    have hm := (sortSegs_mem _ _).mp hb
    exact ⟨hB b hm, Nat.zero_le _, le_maxTo segs b hm⟩
  have hp : List.Pairwise optSep ((sortSegs segs).map some) := by
    rw [List.pairwise_map]
    have hperm := sortSegs_perm segs []
    simp only [List.nil_append] at hperm
    exact (hperm.pairwise_iff (fun h => sepRel_symm _ _ h)).mpr hP
  have := buildTreeGo_ok (segs.length + 1) ((sortSegs segs).map some) 0 0 (maxTo segs)
    hl hp
  exact forestOk_of_mem (buildTree segs) n this.2.2 hn

/-- Witness for C8: the hypotheses discharged on the two overlapping
matched segments of the overlap example. -/
theorem c8_node_invariant_witness :
    (∀ a ∈ [exSegA, exSegB], segBasic a) ∧
    List.Pairwise sepRel [exSegA, exSegB] ∧
    (∀ n ∈ buildTree [exSegA, exSegB], nodeOk n = true) :=
  ⟨by decide, by decide, c8_node_invariant [exSegA, exSegB] (by decide) (by decide)⟩
